import Mathlib

/-!
Verification of the `iox` package (generic value-stream readers/writers) via a
shallow embedding.  Go readers close over private mutable state; we model a
reader as a step function on an explicit state type: one `Read` call maps a
state to a new state, a returned value, and an optional error.  Go's `error`
is `Option Err` (`none` = nil); the zero value returned on failure paths is
`default` of an `Inhabited` type.
-/

set_option maxHeartbeats 1000000

namespace Iox

/-- Sentinel errors used by the package: io.EOF, io.ErrClosedPipe, and
opaque other errors (e.g. codec failures). -/
inductive Err where
  | eof
  | closedPipe
  | other (code : Nat)
deriving DecidableEq, Repr

/-- One `Read` call of a `Reader[T]` with state `σ`: new state, value, error. -/
def StepFn (σ α : Type) : Type := σ → σ × α × Option Err

/-- One `Write` call of a `Writer[T]` with state `σ`: new state, error. -/
def WStepFn (σ α : Type) : Type := σ → α → σ × Option Err

/-- State after `n` reads. -/
def iterState (step : StepFn σ α) : Nat → σ → σ
  | 0, st => st
  | n + 1, st => iterState step n (step st).1

/-- Output (value, error) of the `n`-th read (0-indexed). -/
def nthOut (step : StepFn σ α) (st : σ) (n : Nat) : α × Option Err :=
  (step (iterState step n st)).2

/-- Final state and list of outputs of the first `n` reads. -/
def runN (step : StepFn σ α) : Nat → σ → σ × List (α × Option Err)
  | 0, st => (st, [])
  | n + 1, st =>
      let r := step st
      let rest := runN step n r.1
      (rest.1, r.2 :: rest.2)

/-- Model of `ReaderImpl[T]`: a struct holding an optional implementation function.
`Read` defers to it; a nil impl returns the zero value with io.EOF. -/
structure ReaderImpl (σ α : Type) where
  impl : Option (StepFn σ α)

def ReaderImpl.read [Inhabited α] (r : ReaderImpl σ α) : StepFn σ α :=
  fun st =>
    match r.impl with
    | none => (st, default, some Err.eof)
    | some f => f st

/-- Model of `WriterImpl[T]`: `Write` defers to the optional impl; a nil impl returns
io.ErrClosedPipe. -/
structure WriterImpl (σ α : Type) where
  impl : Option (WStepFn σ α)

def WriterImpl.write (w : WriterImpl σ α) : WStepFn σ α :=
  fun st v =>
    match w.impl with
    | none => (st, some Err.closedPipe)
    | some f => f st v

/-- Model of `ReadCloserImpl[T]`: optional close and read implementation functions. -/
structure ReadCloserImpl (σ α : Type) where
  implC : Option (σ → σ × Option Err)
  implR : Option (StepFn σ α)

/-- Go `Close` defers to `ImplC`; if nil, nothing happens (success). -/
def ReadCloserImpl.close (r : ReadCloserImpl σ α) : σ → σ × Option Err :=
  fun st =>
    match r.implC with
    | none => (st, none)
    | some f => f st

/-- Go `Read` defers to `ImplR`; if nil, io.EOF with the zero value. -/
def ReadCloserImpl.read [Inhabited α] (r : ReadCloserImpl σ α) : StepFn σ α :=
  fun st =>
    match r.implR with
    | none => (st, default, some Err.eof)
    | some f => f st

/-- Model of `NewReaderFrom(vs...)`: yields `vs` by a private cursor `i`; once
`i >= len(vs)` every call returns the zero value and io.EOF, cursor unchanged. -/
def NewReaderFrom [Inhabited α] (vs : List α) : StepFn Nat α :=
  fun i =>
    if h : i < vs.length then (i + 1, vs.get ⟨i, h⟩, none)
    else (i, default, some Err.eof)

/-- Loop body of `NewReaderWithBatching`: pull up to `n` values, appending each
to `acc`; stop at the first error, which becomes the new `errCache`. Returns
the underlying state after the loop, the collected list and the error (`none`
when all `n` pulls succeeded). -/
def batchLoop (step : StepFn σ α) : Nat → σ → List α → σ × List α × Option Err
  | 0, st, acc => (st, acc, none)
  | n + 1, st, acc =>
      match step st with
      | (st1, _, some e) => (st1, acc, some e)
      | (st1, v, none) => batchLoop step n st1 (acc ++ [v])

/-- Size defaulting of `NewReaderWithBatching`: `size <= 0` defaults to 8. -/
def effSize (size : Int) : Nat := if size ≤ 0 then 8 else size.toNat

/-- One call of the batching reader with effective size `size`. State is the
underlying state plus `errCache`. If `errCache` is set, return it with a fresh
empty slice (state unchanged). Otherwise run the pull loop; on an error with
nothing collected return the error, on an error with a partial batch return the
batch with a nil error (error stays cached for the next call). -/
def batchFinish (r : σ × List α × Option Err) : (σ × Option Err) × List α × Option Err :=
  match r with
  | (st1, s, some e) =>
      if s.isEmpty then ((st1, some e), s, some e)
      else ((st1, some e), s, none)
  | (st1, s, none) => ((st1, none), s, none)

def batchingStep (step : StepFn σ α) (size : Nat) :
    StepFn (σ × Option Err) (List α) :=
  fun p =>
    match p.2 with
    | some e => ((p.1, some e), [], some e)
    | none => batchFinish (batchLoop step size p.1 [])

/-- Model of `NewReaderWithBatching(r, size)` with a non-nil `r`. -/
def NewReaderWithBatching (step : StepFn σ α) (size : Int) :
    StepFn (σ × Option Err) (List α) :=
  batchingStep step (effSize size)

/-- Model of `NewReaderWithUnbatching(r)` with a non-nil `r`. State is the
underlying state, the pending buffer `buf` and `errCache`. A non-empty buffer
pops its front. An empty buffer with a cached error replays it. Otherwise pull
the underlying reader and dispatch on the four cases of the Go switch. Note:
on the empty-list cases the error is returned but `errCache` is NOT set. -/
def NewReaderWithUnbatching [Inhabited α] (step : StepFn σ (List α)) :
    StepFn (σ × List α × Option Err) α :=
  fun t =>
    match t with
    | (st, v :: rest, ec) => ((st, rest, ec), v, none)
    | (st, [], some e) => ((st, [], some e), default, some e)
    | (st, [], none) =>
        match step st with
        | (st1, [], some e) => ((st1, [], none), default, some e)
        | (st1, [], none) => ((st1, [], none), default, some Err.eof)
        | (st1, v :: rest, some e) => ((st1, rest, some e), v, none)
        | (st1, v :: rest, none) => ((st1, rest, none), v, none)

/-- Fuel-indexed chunking of a list into pieces of `S` (last may be shorter). -/
def chunksF (S : Nat) : Nat → List α → List (List α)
  | 0, _ => []
  | _ + 1, [] => []
  | fuel + 1, v :: rest => ((v :: rest).take S) :: chunksF S fuel ((v :: rest).drop S)

/-- Split `l` into consecutive pieces of `S` elements (last may be shorter). -/
def chunks (S : Nat) (l : List α) : List (List α) := chunksF S l.length l

/-- Ceiling division on naturals. -/
def ceilDiv (n S : Nat) : Nat := (n + S - 1) / S

/-- Expected output of the `k`-th read of an exhausting reader over list `L`
whose terminal error is `e`: the `k`-th element while in range, then `e`. -/
def readSpecE [Inhabited α] (L : List α) (e : Err) (k : Nat) : α × Option Err :=
  match L[k]? with
  | some a => (a, none)
  | none => (default, some e)

/-- Expected output of the `k`-th read of a reader that yields `L` then io.EOF. -/
def readSpec [Inhabited α] (L : List α) (k : Nat) : α × Option Err :=
  readSpecE L Err.eof k

/-- Model of Go's `bytes.Buffer.Read`: drain up to `n` front bytes; an empty
buffer with a non-empty request reports io.EOF. Returns (rest, read, err). -/
def bufRead (b : List Nat) (n : Nat) : List Nat × List Nat × Option Err :=
  if b = [] ∧ 0 < n then ([], [], some Err.eof)
  else (b.drop n, b.take n, none)

/-- Model of `NewReaderFromValues(r)(f)` with non-nil `r`: each byte-read call
first pulls one value from the wrapped reader, returning its failure at once;
otherwise encodes the value, appending the bytes to the scratch buffer, and
drains up to `n` bytes from the front of the buffer. Encoding is a pure
function `α → Except Err (List Nat)` (bytes appended on success). -/
def NewReaderFromValues (stepR : StepFn σ α) (enc : α → Except Err (List Nat))
    (rst : σ) (b : List Nat) (n : Nat) : (σ × List Nat) × List Nat × Option Err :=
  match stepR rst with
  | (rst1, _, some e) => ((rst1, b), [], some e)
  | (rst1, v, none) =>
      match enc v with
      | Except.error ee => ((rst1, b), [], some ee)
      | Except.ok bs =>
          ((rst1, (bufRead (b ++ bs) n).1),
            (bufRead (b ++ bs) n).2.1, (bufRead (b ++ bs) n).2.2)

/-- Model of `NewWriterWithBatching(w, size)` with non-nil `w`. State is the
underlying writer state plus the buffer. Appends the value; if the buffer
length reached `size` (Go int comparison, no defaulting of `size <= 0`), the
buffer is flushed to the underlying writer and reset — regardless of the
flush outcome — and the flush error is returned. -/
def NewWriterWithBatching (stepW : WStepFn σ (List α)) (size : Int) :
    WStepFn (σ × List α) α :=
  fun p v =>
    if size ≤ (((p.2 ++ [v]).length : Nat) : Int) then
      (((stepW p.1 (p.2 ++ [v])).1, []), (stepW p.1 (p.2 ++ [v])).2)
    else ((p.1, p.2 ++ [v]), none)

/-- Model of `NewWriterFromValues(w)(f)` with non-nil `w`: encode the value
into the scratch buffer; on encode failure return the error without touching
the underlying byte writer; on success drain the whole buffer into it. -/
def NewWriterFromValues (enc : α → Except Err (List Nat))
    (stepW : WStepFn σ (List Nat)) : WStepFn (σ × List Nat) α :=
  fun p v =>
    match enc v with
    | Except.error e => (p, some e)
    | Except.ok bs =>
        (((stepW p.1 (p.2 ++ bs)).1, []), (stepW p.1 (p.2 ++ bs)).2)

/-- Read half of `NewReadWriterFrom(vs...)`: pop the front of the buffer; an
empty buffer reports io.EOF with the zero value. -/
def NewReadWriterFromRead [Inhabited α] : StepFn (List α) α :=
  fun buf =>
    match buf with
    | [] => ([], default, some Err.eof)
    | v :: rest => (rest, v, none)

/-- Write half of `NewReadWriterFrom(vs...)`: append the value at the back. -/
def NewReadWriterFromWrite : WStepFn (List α) α :=
  fun buf v => (buf ++ [v], none)

/-- Concrete underlying batch reader: state 0 yields an empty list with
io.EOF, any later state yields `[5]` with no error. -/
def flipReader : StepFn Nat (List Nat) :=
  fun s => if s = 0 then (1, [], some Err.eof) else (2, [5], none)

/-- Concrete underlying batch reader that always yields an empty list with a
nil error. -/
def emptyNilReader : StepFn Nat (List Nat) :=
  fun s => (s, [], none)

/-- Concrete encoder producing two bytes for every value. -/
def encTwo : Nat → Except Err (List Nat) :=
  fun _ => Except.ok [10, 20]

/-- Concrete encoder that always fails. -/
def encFail : Nat → Except Err (List Nat) :=
  fun _ => Except.error (Err.other 3)

/-- Concrete underlying list writer that records every flushed batch. -/
def recWriter : WStepFn (List (List Nat)) (List Nat) :=
  fun sink batch => (sink ++ [batch], none)

/-- Concrete underlying list writer that always fails with io.ErrClosedPipe. -/
def failWriter : WStepFn Nat (List Nat) :=
  fun s _ => (s + 1, some Err.closedPipe)

end Iox

namespace Iox

theorem nthOut_zero (step : StepFn σ α) (st : σ) : nthOut step st 0 = (step st).2 := rfl

theorem nthOut_succ (step : StepFn σ α) (st : σ) (k : Nat) :
    nthOut step st (k + 1) = nthOut step (step st).1 k := rfl

/-- Characterization of `NewReaderFrom` from any cursor `i`: the `k`-th
subsequent read yields `vs[i+k]` while in range, io.EOF afterwards. -/
theorem NewReaderFrom.nthOut_from [Inhabited α] (vs : List α) :
    ∀ (k i : Nat),
      nthOut (NewReaderFrom vs) i k =
        if h : i + k < vs.length then (vs.get ⟨i + k, h⟩, none)
        else (default, some Err.eof) := by
  intro k
  induction k with
  | zero =>
      intro i
      rw [nthOut_zero]
      by_cases h : i < vs.length
      · simp [NewReaderFrom, h]
      · simp [NewReaderFrom, h]
  | succ k ih =>
      intro i
      rw [nthOut_succ]
      by_cases h : i < vs.length
      · have hstep : (NewReaderFrom vs i).1 = i + 1 := by
          simp [NewReaderFrom, h]
        rw [hstep, ih (i + 1)]
        have : i + 1 + k = i + (k + 1) := by omega
        rw [this]
      · have hstep : (NewReaderFrom vs i).1 = i := by
          simp [NewReaderFrom, h]
        rw [hstep, ih i]
        have h1 : ¬ i + k < vs.length := by omega
        have h2 : ¬ i + (k + 1) < vs.length := by omega
        simp [h1, h2]

end Iox

namespace Iox

theorem chunksF_nil (S fuel : Nat) : chunksF S fuel ([] : List α) = [] := by
  cases fuel <;> rfl

theorem chunksF_of_le (S : Nat) (hS : 1 ≤ S) (fuel : Nat) :
    ∀ (l : List α), l.length ≤ fuel → chunksF S fuel l = chunks S l := by
  induction fuel using Nat.strong_induction_on with
  | _ fuel ih =>
      intro l hl
      cases l with
      | nil => rw [chunksF_nil, chunks, List.length_nil, chunksF_nil]
      | cons v rest =>
          rw [List.length_cons] at hl
          cases fuel with
          | zero => omega
          | succ f =>
              have e1 : chunksF S (f + 1) (v :: rest)
                  = ((v :: rest).take S) :: chunksF S f ((v :: rest).drop S) := rfl
              have e2 : chunks S (v :: rest)
                  = ((v :: rest).take S) :: chunksF S rest.length ((v :: rest).drop S) := rfl
              have hdl : ((v :: rest).drop S).length ≤ f := by
                rw [List.length_drop, List.length_cons]
                omega
              have hdl2 : ((v :: rest).drop S).length ≤ rest.length := by
                rw [List.length_drop, List.length_cons]
                omega
              rw [e1, e2, ih f (by omega) _ hdl]
              by_cases hf : rest.length < f + 1
              · rw [ih rest.length (by omega) _ hdl2]
              · have : rest.length = f := by omega
                rw [this, ih f (by omega) _ hdl]

theorem chunks_cons (S : Nat) (hS : 1 ≤ S) (v : α) (rest : List α) :
    chunks S (v :: rest) = ((v :: rest).take S) :: chunks S ((v :: rest).drop S) := by
  have e2 : chunks S (v :: rest)
      = ((v :: rest).take S) :: chunksF S rest.length ((v :: rest).drop S) := rfl
  have hdl2 : ((v :: rest).drop S).length ≤ rest.length := by
    rw [List.length_drop, List.length_cons]
    omega
  rw [e2, chunksF_of_le S hS rest.length _ hdl2]

theorem chunks_nil (S : Nat) : chunks S ([] : List α) = [] := rfl

theorem chunks_flatten (S : Nat) (hS : 1 ≤ S) (l : List α) :
    (chunks S l).flatten = l := by
  generalize hn : l.length = n
  induction n using Nat.strong_induction_on generalizing l with
  | _ n ih =>
      cases l with
      | nil => rfl
      | cons v rest =>
          rw [List.length_cons] at hn
          rw [chunks_cons S hS, List.flatten_cons]
          have hlt : ((v :: rest).drop S).length < n := by
            rw [List.length_drop, List.length_cons]
            omega
          rw [ih _ hlt _ rfl, List.take_append_drop]

theorem ceilDiv_pos_eq (S n : Nat) (hS : 1 ≤ S) (hn : 1 ≤ n) :
    ceilDiv n S = (n - 1) / S + 1 := by
  unfold ceilDiv
  have h1 : n + S - 1 = (n - 1) + S := by omega
  rw [h1, Nat.add_div_right _ (by omega)]

theorem chunks_length (S : Nat) (hS : 1 ≤ S) (l : List α) :
    (chunks S l).length = ceilDiv l.length S := by
  generalize hn : l.length = n
  induction n using Nat.strong_induction_on generalizing l with
  | _ n ih =>
      cases l with
      | nil =>
          rw [List.length_nil] at hn
          subst hn
          show 0 = (0 + S - 1) / S
          rw [Nat.zero_add, Nat.div_eq_of_lt (by omega)]
      | cons v rest =>
          rw [List.length_cons] at hn
          rw [chunks_cons S hS, List.length_cons]
          have hlt : ((v :: rest).drop S).length < n := by
            rw [List.length_drop, List.length_cons]
            omega
          rw [ih _ hlt _ rfl]
          rw [List.length_drop, List.length_cons, hn]
          rw [ceilDiv_pos_eq S n hS (by omega)]
          by_cases hcase : n ≤ S
          · have h1 : n - S = 0 := by omega
            rw [h1]
            show (0 + S - 1) / S + 1 = _
            rw [Nat.zero_add, Nat.div_eq_of_lt (by omega)]
            have h2 : (n - 1) / S = 0 := Nat.div_eq_of_lt (by omega)
            rw [h2]
          · rw [ceilDiv_pos_eq S (n - S) hS (by omega)]
            have h3 : n - 1 = (n - S - 1) + S := by omega
            rw [h3, Nat.add_div_right _ (by omega)]

theorem chunks_ne_nil (S : Nat) (hS : 1 ≤ S) (l : List α) :
    ∀ c ∈ chunks S l, c ≠ [] := by
  generalize hn : l.length = n
  induction n using Nat.strong_induction_on generalizing l with
  | _ n ih =>
      cases l with
      | nil => intro c hc; rw [chunks_nil] at hc; exact absurd hc (List.not_mem_nil c)
      | cons v rest =>
          rw [List.length_cons] at hn
          rw [chunks_cons S hS]
          intro c hc
          rcases List.mem_cons.mp hc with h | h
          · subst h
            cases S with
            | zero => omega
            | succ S' => simp [List.take]
          · have hlt : ((v :: rest).drop S).length < n := by
              rw [List.length_drop, List.length_cons]
              omega
            exact ih _ hlt _ rfl c h

end Iox

namespace Iox

theorem runN_zero (step : StepFn σ α) (st : σ) : runN step 0 st = (st, []) := rfl

theorem runN_succ (step : StepFn σ α) (n : Nat) (st : σ) :
    runN step (n + 1) st
      = ((runN step n (step st).1).1, (step st).2 :: (runN step n (step st).1).2) := rfl

/-- The cached-error branch of the batching reader: returns the cached error
with an empty slice, state unchanged. -/
theorem batchingStep_cached (step : StepFn σ α) (size : Nat) (st : σ) (e : Err) :
    batchingStep step size (st, some e) = ((st, some e), [], some e) := rfl

/-- Characterization of `batchLoop` over a fixed-sequence reader with cursor
`i ≤ vs.length`: a full batch when `i + S` values exist, a partial batch to
the end followed by io.EOF otherwise, and an immediate io.EOF at exhaustion. -/
theorem batchLoop_from [Inhabited α] (vs : List α) :
    ∀ (S i : Nat) (acc : List α), i ≤ vs.length →
      batchLoop (NewReaderFrom vs) S i acc =
        if i + S ≤ vs.length then (i + S, acc ++ (vs.drop i).take S, none)
        else if i < vs.length then (vs.length, acc ++ vs.drop i, some Err.eof)
        else (i, acc, some Err.eof) := by
  intro S
  induction S with
  | zero =>
      intro i acc hi
      have h1 : i + 0 ≤ vs.length := by omega
      simp only [batchLoop, h1, if_pos]
      rw [List.take_zero, List.append_nil, Nat.add_zero]
  | succ S ih =>
      intro i acc hi
      by_cases h : i < vs.length
      · have hstep : NewReaderFrom vs i = (i + 1, vs.get ⟨i, h⟩, none) := by
          simp [NewReaderFrom, h]
        have hloop : batchLoop (NewReaderFrom vs) (S + 1) i acc
            = batchLoop (NewReaderFrom vs) S (i + 1) (acc ++ [vs.get ⟨i, h⟩]) := by
          rw [batchLoop, hstep]
        rw [hloop, ih (i + 1) _ (by omega)]
        have hdropc : vs.drop i = vs.get ⟨i, h⟩ :: vs.drop (i + 1) :=
          List.drop_eq_get_cons h
        by_cases h2 : i + 1 + S ≤ vs.length
        · have h3 : i + (S + 1) ≤ vs.length := by omega
          rw [if_pos h2, if_pos h3]
          have : acc ++ [vs.get ⟨i, h⟩] ++ (vs.drop (i + 1)).take S
              = acc ++ (vs.drop i).take (S + 1) := by
            rw [hdropc, List.take_succ_cons, List.append_assoc]
            rfl
          rw [this]
          have : i + 1 + S = i + (S + 1) := by omega
          rw [this]
        · have h3 : ¬ i + (S + 1) ≤ vs.length := by omega
          rw [if_neg h2, if_neg h3, if_pos h]
          by_cases h4 : i + 1 < vs.length
          · rw [if_pos h4]
            have : acc ++ [vs.get ⟨i, h⟩] ++ vs.drop (i + 1) = acc ++ vs.drop i := by
              rw [hdropc, List.append_assoc]
              rfl
            rw [this]
          · rw [if_neg h4]
            have h5 : i + 1 = vs.length := by omega
            have : acc ++ [vs.get ⟨i, h⟩] = acc ++ vs.drop i := by
              rw [hdropc]
              have : vs.drop (i + 1) = [] := by
                rw [List.drop_eq_nil_iff_le]
                omega
              rw [this]
            rw [this, h5]
      · have hstep : NewReaderFrom vs i = (i, default, some Err.eof) := by
          simp [NewReaderFrom, h]
        have hloop : batchLoop (NewReaderFrom vs) (S + 1) i acc = (i, acc, some Err.eof) := by
          rw [batchLoop, hstep]
        have h3 : ¬ i + (S + 1) ≤ vs.length := by omega
        rw [hloop, if_neg h3, if_neg h]

/-- One call of the batching reader over a fixed-sequence reader in the
no-cached-error state. -/
theorem batchingStep_none (step : StepFn σ α) (size : Nat) (st : σ) :
    batchingStep step size (st, none) = batchFinish (batchLoop step size st []) := rfl

theorem batchFinish_some_ne (st1 : σ) (s : List α) (e : Err) (h : s.isEmpty = false) :
    batchFinish (st1, s, some e) = ((st1, some e), s, none) := by
  rw [batchFinish, h]
  rfl

theorem batchFinish_some_nil (st1 : σ) (e : Err) :
    batchFinish (st1, ([] : List α), some e) = ((st1, some e), [], some e) := rfl

theorem batchFinish_none (st1 : σ) (s : List α) :
    batchFinish (st1, s, none) = ((st1, none), s, none) := rfl

/-- One call of the batching reader over a fixed-sequence reader in the
no-cached-error state. -/
theorem batchingStep_from [Inhabited α] (vs : List α) (S i : Nat) (hS : 1 ≤ S)
    (hi : i ≤ vs.length) :
    batchingStep (NewReaderFrom vs) S (i, none) =
      if i + S ≤ vs.length then ((i + S, none), (vs.drop i).take S, none)
      else if i < vs.length then ((vs.length, some Err.eof), vs.drop i, none)
      else ((i, some Err.eof), [], some Err.eof) := by
  have hloop := batchLoop_from vs S i [] hi
  simp only [List.nil_append] at hloop
  rw [batchingStep_none]
  by_cases h1 : i + S ≤ vs.length
  · rw [if_pos h1] at hloop ⊢
    rw [hloop, batchFinish_none]
  · rw [if_neg h1] at hloop ⊢
    by_cases h2 : i < vs.length
    · rw [if_pos h2] at hloop ⊢
      have hne0 : vs.drop i ≠ [] := by
        intro hemp
        rw [List.drop_eq_nil_iff] at hemp
        omega
      have hne : (vs.drop i).isEmpty = false := by
        cases hdp : vs.drop i with
        | nil => exact absurd hdp hne0
        | cons a t => rfl
      rw [hloop, batchFinish_some_ne _ _ _ hne]
    · rw [if_neg h2] at hloop ⊢
      rw [hloop, batchFinish_some_nil]

end Iox

namespace Iox

theorem chunks_cons_of_ne (S : Nat) (hS : 1 ≤ S) (l : List α) (hne : l ≠ []) :
    chunks S l = l.take S :: chunks S (l.drop S) := by
  cases l with
  | nil => exact absurd rfl hne
  | cons v rest => exact chunks_cons S hS v rest

/-- Trace of the batching reader over a fixed-sequence reader starting at
cursor `i`: one non-empty batch per chunk of the remaining values, followed by
an empty batch carrying io.EOF. -/
theorem batching_trace [Inhabited α] (vs : List α) (S : Nat) (hS : 1 ≤ S) :
    ∀ (n i : Nat), vs.length - i ≤ n → i ≤ vs.length →
      (runN (batchingStep (NewReaderFrom vs) S)
          ((chunks S (vs.drop i)).length + 1) (i, none)).2
        = (chunks S (vs.drop i)).map (fun c => (c, none)) ++ [([], some Err.eof)] := by
  intro n
  induction n with
  | zero =>
      intro i h1 h2
      have hi : i = vs.length := by omega
      have hdrop : vs.drop i = [] := by
        rw [List.drop_eq_nil_iff]
        omega
      rw [hdrop, chunks_nil]
      rw [runN_succ]
      have hstep := batchingStep_from vs S i hS h2
      have hc1 : ¬ i + S ≤ vs.length := by omega
      have hc2 : ¬ i < vs.length := by omega
      rw [if_neg hc1, if_neg hc2] at hstep
      rw [hstep]
      rfl
  | succ n ih =>
      intro i h1 h2
      by_cases hend : i < vs.length
      · have hne : vs.drop i ≠ [] := by
          intro hemp
          rw [List.drop_eq_nil_iff] at hemp
          omega
        have hstep := batchingStep_from vs S i hS h2
        rw [chunks_cons_of_ne S hS _ hne, List.length_cons, List.map_cons]
        have hdd : (vs.drop i).drop S = vs.drop (i + S) := by
          rw [List.drop_drop]
        by_cases hfull : i + S ≤ vs.length
        · rw [if_pos hfull] at hstep
          rw [runN_succ, hstep]
          have ihx := ih (i + S) (by omega) (by omega)
          rw [hdd]
          show ((vs.drop i).take S, (none : Option Err))
                :: (runN (batchingStep (NewReaderFrom vs) S)
                    ((chunks S (vs.drop (i + S))).length + 1) ((i + S), none)).2
              = ((vs.drop i).take S, none)
                :: ((chunks S (vs.drop (i + S))).map (fun c => (c, none))
                    ++ [([], some Err.eof)])
          rw [ihx]
        · rw [if_neg hfull, if_pos hend] at hstep
          have hdnil : vs.drop (i + S) = [] := by
            rw [List.drop_eq_nil_iff]
            omega
          have htake : (vs.drop i).take S = vs.drop i := by
            apply List.take_of_length_le
            rw [List.length_drop]
            omega
          rw [hdd, hdnil, chunks_nil, htake]
          rw [runN_succ, hstep]
          rw [runN_succ]
          rw [batchingStep_cached]
          rfl
      · have hi : i = vs.length := by omega
        have hdrop : vs.drop i = [] := by
          rw [List.drop_eq_nil_iff]
          omega
        rw [hdrop, chunks_nil]
        rw [runN_succ]
        have hstep := batchingStep_from vs S i hS h2
        have hc1 : ¬ i + S ≤ vs.length := by omega
        rw [if_neg hc1, if_neg hend] at hstep
        rw [hstep]
        rfl

end Iox

namespace Iox

theorem effSize_pos (size : Int) : 1 ≤ effSize size := by
  unfold effSize
  split
  · omega
  · omega

end Iox

namespace Iox

/-- C1: for the batching reader (`NewReaderWithBatching`, non-nil underlying
reader, effective size `S ≥ 1`): (i) the effective size is always at least 1;
(ii) if the underlying reader fails on the first pull of a cycle (before any
element was collected), the call returns that failure with an empty list;
(iii) if the pull loop collected at least one element before a failure, the
call returns the partial list with no failure, and the next call returns an
empty list with the cached failure; (iv) over a source of `N` values followed
by io.EOF, the reader yields exactly `ceil(N/S)` non-empty batches — one per
chunk — whose concatenation is the original sequence, followed by an
empty-list io.EOF. -/
theorem claim_C1 {α : Type} [Inhabited α]
    (size : Int) (S : Nat) (heff : effSize size = S)
    (σ2 : Type) (step2 : StepFn σ2 α) (st st1 : σ2) (v : α) (f : Err)
    (hfail : step2 st = (st1, v, some f))
    (σ3 : Type) (step3 : StepFn σ3 α) (t t1 : σ3) (s : List α) (g : Err)
    (hpart : batchLoop step3 S t [] = (t1, s, some g)) (hne : s ≠ [])
    (vs : List α) :
    1 ≤ S
    ∧ NewReaderWithBatching step2 size (st, none) = ((st1, some f), [], some f)
    ∧ NewReaderWithBatching step3 size (t, none) = ((t1, some g), s, none)
    ∧ NewReaderWithBatching step3 size (t1, some g) = ((t1, some g), [], some g)
    ∧ (runN (NewReaderWithBatching (NewReaderFrom vs) size)
          ((chunks S vs).length + 1) (0, none)).2
        = (chunks S vs).map (fun c => (c, none)) ++ [([], some Err.eof)]
    ∧ (chunks S vs).length = ceilDiv vs.length S
    ∧ (chunks S vs).flatten = vs
    ∧ (∀ c ∈ chunks S vs, c ≠ []) := by
  have hS : 1 ≤ S := heff ▸ effSize_pos size
  refine ⟨hS, ?_, ?_, ?_, ?_, ?_, ?_, ?_⟩
  · obtain ⟨S', hS'⟩ : ∃ S', S = S' + 1 := ⟨S - 1, by omega⟩
    simp only [NewReaderWithBatching, heff, hS']
    rw [batchingStep_none]
    have hloop : batchLoop step2 (S' + 1) st [] = (st1, [], some f) := by
      simp only [batchLoop, hfail]
    rw [hloop, batchFinish_some_nil]
  · simp only [NewReaderWithBatching, heff]
    rw [batchingStep_none, hpart]
    have hne' : s.isEmpty = false := by
      cases s with
      | nil => exact absurd rfl hne
      | cons a tl => rfl
    rw [batchFinish_some_ne _ _ _ hne']
  · simp only [NewReaderWithBatching, heff]
    rw [batchingStep_cached]
  · simp only [NewReaderWithBatching, heff]
    have h := batching_trace vs S hS vs.length 0 (by omega) (by omega)
    rw [List.drop_zero] at h
    exact h
  · exact chunks_length S hS vs
  · exact chunks_flatten S hS vs
  · exact chunks_ne_nil S hS vs

/-- Witness for C1 at size 2 over concrete readers. -/
theorem claim_C1_witness :
    1 ≤ 2
    ∧ NewReaderWithBatching (NewReaderFrom ([] : List Nat)) 2 (0, none)
        = ((0, some Err.eof), [], some Err.eof)
    ∧ NewReaderWithBatching (NewReaderFrom [7]) 2 (0, none)
        = ((1, some Err.eof), [7], none)
    ∧ NewReaderWithBatching (NewReaderFrom [7]) 2 (1, some Err.eof)
        = ((1, some Err.eof), [], some Err.eof)
    ∧ (runN (NewReaderWithBatching (NewReaderFrom [1, 2, 3]) 2)
          ((chunks 2 [1, 2, 3]).length + 1) (0, none)).2
        = (chunks 2 [1, 2, 3]).map (fun c => (c, none)) ++ [([], some Err.eof)]
    ∧ (chunks 2 [1, 2, 3]).length = ceilDiv ([1, 2, 3] : List Nat).length 2
    ∧ (chunks 2 [1, 2, 3]).flatten = [1, 2, 3]
    ∧ (∀ c ∈ chunks 2 [1, 2, 3], c ≠ []) :=
  claim_C1 2 2 (by decide)
    Nat (NewReaderFrom ([] : List Nat)) 0 0 0 Err.eof (by decide)
    Nat (NewReaderFrom [7]) 0 1 [7] Err.eof (by decide) (by decide)
    [1, 2, 3]

end Iox

namespace Iox

theorem readSpecE_nil [Inhabited α] (e : Err) (k : Nat) :
    readSpecE ([] : List α) e k = (default, some e) := by
  unfold readSpecE
  rw [List.getElem?_nil]

theorem readSpecE_cons_zero [Inhabited α] (v : α) (rest : List α) (e : Err) :
    readSpecE (v :: rest) e 0 = (v, none) := by
  unfold readSpecE
  rw [List.getElem?_cons_zero]

theorem readSpecE_cons_succ [Inhabited α] (v : α) (rest : List α) (e : Err) (k : Nat) :
    readSpecE (v :: rest) e (k + 1) = readSpecE rest e k := by
  unfold readSpecE
  rw [List.getElem?_cons_succ]

theorem readSpec_eq [Inhabited α] (L : List α) (k : Nat) :
    readSpec L k =
      if h : k < L.length then (L.get ⟨k, h⟩, none) else (default, some Err.eof) := by
  unfold readSpec readSpecE
  by_cases h : k < L.length
  · rw [dif_pos h, List.getElem?_eq_getElem h, List.get_eq_getElem]
  · rw [dif_neg h, List.getElem?_eq_none (by omega)]

/-- Pop branch of the unbatching reader: a non-empty buffer yields its front. -/
theorem unb_pop [Inhabited α] (step : StepFn σ (List α)) (st : σ) (v : α)
    (rest : List α) (ec : Option Err) :
    NewReaderWithUnbatching step (st, v :: rest, ec) = ((st, rest, ec), v, none) := rfl

/-- Cached branch of the unbatching reader: an empty buffer with a cached
error replays the error, state unchanged. -/
theorem unb_cached [Inhabited α] (step : StepFn σ (List α)) (st : σ) (e : Err) :
    NewReaderWithUnbatching step (st, [], some e)
      = ((st, [], some e), default, some e) := rfl

/-- Fresh branch of the unbatching reader: pull the underlying reader and
dispatch on the four cases of the Go switch. -/
theorem unb_fresh [Inhabited α] (step : StepFn σ (List α)) (st : σ) :
    NewReaderWithUnbatching step (st, [], none) =
      match step st with
      | (st1, [], some e) => ((st1, [], none), default, some e)
      | (st1, [], none) => ((st1, [], none), default, some Err.eof)
      | (st1, v :: rest, some e) => ((st1, rest, some e), v, none)
      | (st1, v :: rest, none) => ((st1, rest, none), v, none) := rfl

/-- If the underlying reader is stuck returning an empty list with error `e`
from state `c`, the unbatching reader drains its buffer and then fails with
`e` forever. -/
theorem unb_absorb [Inhabited α] (b : StepFn τ (List α)) (c : τ) (e : Err)
    (hc : b c = (c, [], some e)) :
    ∀ (buf : List α) (k : Nat),
      nthOut (NewReaderWithUnbatching b) (c, buf, none) k = readSpecE buf e k := by
  intro buf
  induction buf with
  | nil =>
      intro k
      induction k with
      | zero =>
          rw [nthOut_zero, unb_fresh, hc, readSpecE_nil]
      | succ k ihk =>
          rw [nthOut_succ]
          have hst : (NewReaderWithUnbatching b (c, [], none)).1 = (c, [], none) := by
            rw [unb_fresh, hc]
          rw [hst, ihk, readSpecE_nil, readSpecE_nil]
  | cons v rest ih =>
      intro k
      cases k with
      | zero => rw [nthOut_zero, unb_pop, readSpecE_cons_zero]
      | succ k =>
          rw [nthOut_succ]
          have hst : (NewReaderWithUnbatching b (c, v :: rest, none)).1
              = (c, rest, none) := by
            rw [unb_pop]
          rw [hst, ih k, readSpecE_cons_succ]

end Iox

namespace Iox

/-- At a fully-consumed cursor, unbatching-over-batching drains its buffer
and then fails with io.EOF forever. -/
theorem unb_exhaust [Inhabited α] (vs : List α) (S : Nat) (hS : 1 ≤ S) :
    ∀ (buf : List α) (k : Nat),
      nthOut (NewReaderWithUnbatching (batchingStep (NewReaderFrom vs) S))
        ((vs.length, none), buf, none) k = readSpec buf k := by
  have hB : batchingStep (NewReaderFrom vs) S (vs.length, none)
      = ((vs.length, some Err.eof), [], some Err.eof) := by
    have h := batchingStep_from vs S vs.length hS (le_refl _)
    rw [if_neg (by omega), if_neg (by omega)] at h
    exact h
  intro buf
  induction buf with
  | nil =>
      intro k
      cases k with
      | zero =>
          rw [nthOut_zero, unb_fresh, hB, readSpec, readSpecE_nil]
      | succ k =>
          rw [nthOut_succ]
          have hst : (NewReaderWithUnbatching (batchingStep (NewReaderFrom vs) S)
              ((vs.length, none), [], none)).1
              = ((vs.length, some Err.eof), [], none) := by
            rw [unb_fresh, hB]
          rw [hst]
          have habs := unb_absorb (batchingStep (NewReaderFrom vs) S)
            (vs.length, some Err.eof) Err.eof (batchingStep_cached _ _ _ _) [] k
          rw [habs, readSpec, readSpecE_nil, readSpecE_nil]
  | cons v rest ih =>
      intro k
      cases k with
      | zero => rw [nthOut_zero, unb_pop, readSpec, readSpecE_cons_zero]
      | succ k =>
          rw [nthOut_succ]
          have hst : (NewReaderWithUnbatching (batchingStep (NewReaderFrom vs) S)
              ((vs.length, none), v :: rest, none)).1
              = ((vs.length, none), rest, none) := by
            rw [unb_pop]
          rw [hst, ih k, readSpec, readSpec, readSpecE_cons_succ]

/-- Main trace lemma for unbatching over batching over a fixed sequence:
from cursor `i` with pending buffer `buf`, the `k`-th read behaves as a plain
exhausting reader over `buf ++ vs.drop i`. -/
theorem unb_main [Inhabited α] (vs : List α) (S : Nat) (hS : 1 ≤ S) :
    ∀ (n i : Nat), vs.length - i ≤ n → i ≤ vs.length →
      ∀ (buf : List α) (k : Nat),
        nthOut (NewReaderWithUnbatching (batchingStep (NewReaderFrom vs) S))
          ((i, none), buf, none) k = readSpec (buf ++ vs.drop i) k := by
  intro n
  induction n with
  | zero =>
      intro i h1 h2 buf k
      have hi : i = vs.length := by omega
      subst hi
      have hd : vs.drop vs.length = [] := by
        rw [List.drop_eq_nil_iff]
      rw [hd, List.append_nil]
      exact unb_exhaust vs S hS buf k
  | succ n ih =>
      intro i h1 h2 buf
      induction buf with
      | nil =>
          intro k
          by_cases hend : i < vs.length
          · have hne : vs.drop i ≠ [] := by
              intro hemp
              rw [List.drop_eq_nil_iff] at hemp
              omega
            obtain ⟨w, ws, hw⟩ : ∃ w ws, vs.drop i = w :: ws := by
              cases hdi : vs.drop i with
              | nil => exact absurd hdi hne
              | cons a t => exact ⟨a, t, rfl⟩
            have hws : ws = vs.drop (i + 1) := by
              have h3 : (vs.drop i).drop 1 = vs.drop (i + 1) := by
                rw [List.drop_drop]
              rw [hw] at h3
              rw [← h3, List.drop_one, List.tail_cons]
            have hstep := batchingStep_from vs S i hS (by omega)
            by_cases hfull : i + S ≤ vs.length
            · rw [if_pos hfull] at hstep
              obtain ⟨S', hS'⟩ : ∃ S', S = S' + 1 := ⟨S - 1, by omega⟩
              have hc : (vs.drop i).take S = w :: ws.take S' := by
                rw [hw, hS', List.take_succ_cons]
              cases k with
              | zero =>
                  rw [nthOut_zero, unb_fresh, hstep, hc, List.nil_append, hw,
                    readSpec, readSpecE_cons_zero]
              | succ k =>
                  rw [nthOut_succ]
                  have hst : (NewReaderWithUnbatching (batchingStep (NewReaderFrom vs) S)
                      ((i, none), [], none)).1
                      = ((i + S, none), ws.take S', none) := by
                    rw [unb_fresh, hstep, hc]
                  rw [hst, ih (i + S) (by omega) (by omega) (ws.take S') k]
                  have heq : ws.take S' ++ vs.drop (i + S) = ws := by
                    have h4 : vs.drop (i + S) = ws.drop S' := by
                      rw [hws, List.drop_drop]
                      have h5 : i + 1 + S' = i + S := by omega
                      rw [h5]
                    rw [h4, List.take_append_drop]
                  rw [heq, List.nil_append, hw, readSpec, readSpec, readSpecE_cons_succ]
            · rw [if_neg hfull, if_pos hend] at hstep
              cases k with
              | zero =>
                  rw [nthOut_zero, unb_fresh, hstep, hw, List.nil_append,
                    readSpec, readSpecE_cons_zero]
              | succ k =>
                  rw [nthOut_succ]
                  have hst : (NewReaderWithUnbatching (batchingStep (NewReaderFrom vs) S)
                      ((i, none), [], none)).1
                      = ((vs.length, some Err.eof), ws, none) := by
                    rw [unb_fresh, hstep, hw]
                  rw [hst]
                  have habs := unb_absorb (batchingStep (NewReaderFrom vs) S)
                    (vs.length, some Err.eof) Err.eof (batchingStep_cached _ _ _ _) ws k
                  rw [habs, List.nil_append, hw, readSpec, readSpecE_cons_succ]
          · have hi : i = vs.length := by omega
            subst hi
            have hd : vs.drop vs.length = [] := by
              rw [List.drop_eq_nil_iff]
            rw [hd, List.append_nil]
            exact unb_exhaust vs S hS [] k
      | cons v rest ihbuf =>
          intro k
          cases k with
          | zero =>
              rw [nthOut_zero, unb_pop, List.cons_append, readSpec, readSpecE_cons_zero]
          | succ k =>
              rw [nthOut_succ]
              have hst : (NewReaderWithUnbatching (batchingStep (NewReaderFrom vs) S)
                  ((i, none), v :: rest, none)).1
                  = ((i, none), rest, none) := by
                rw [unb_pop]
              rw [hst, ihbuf k, List.cons_append, readSpec, readSpec, readSpecE_cons_succ]

end Iox



namespace Iox

/-- C2: round trip — for every finite sequence `vs` and every batch size with
effective value `S ≥ 1`, unbatching over batching over a fixed-sequence reader
yields exactly `vs`, one value per call in order, and every subsequent call
fails with io.EOF (the behavior of a plain exhausting reader over `vs`). -/
theorem claim_C2 {α : Type} [Inhabited α] (vs : List α) (size : Int) (S : Nat)
    (heff : effSize size = S) (k : Nat) :
    nthOut (NewReaderWithUnbatching (NewReaderWithBatching (NewReaderFrom vs) size))
      ((0, none), [], none) k = readSpec vs k := by
  have hS : 1 ≤ S := heff ▸ effSize_pos size
  simp only [NewReaderWithBatching, heff]
  have h := unb_main vs S hS vs.length 0 (by omega) (by omega) [] k
  rw [List.drop_zero, List.nil_append] at h
  exact h

/-- Witness for C2 at `vs = [4, 5, 6]`, size 2, call 1. -/
theorem claim_C2_witness :
    nthOut (NewReaderWithUnbatching (NewReaderWithBatching (NewReaderFrom [4, 5, 6]) 2))
      ((0, none), [], none) 1 = readSpec [4, 5, 6] 1 :=
  claim_C2 [4, 5, 6] 2 2 (by decide) 1

/-- C6: sequence exhaustion — `NewReaderFrom(vs...)` yields the values of
`vs` in order, one per call, then fails with io.EOF and the zero value on
every later call. -/
theorem claim_C6 {α : Type} [Inhabited α] (vs : List α) (k : Nat) :
    nthOut (NewReaderFrom vs) 0 k = readSpec vs k := by
  rw [NewReaderFrom.nthOut_from vs k 0, readSpec_eq]
  simp only [Nat.zero_add]

/-- C7: unconfigured-capability defaults — a `ReaderImpl`/`ReadCloserImpl`
with a nil impl returns io.EOF with the zero value on every read, a
`WriterImpl` with a nil impl returns io.ErrClosedPipe on every write, and a
closer with a nil impl succeeds. -/
theorem claim_C7 (σ α : Type) [Inhabited α] (st : σ) (v : α) :
    (⟨none⟩ : ReaderImpl σ α).read st = (st, default, some Err.eof)
    ∧ (⟨none⟩ : WriterImpl σ α).write st v = (st, some Err.closedPipe)
    ∧ (⟨none, none⟩ : ReadCloserImpl σ α).close st = (st, none)
    ∧ (⟨none, none⟩ : ReadCloserImpl σ α).read st = (st, default, some Err.eof) :=
  ⟨rfl, rfl, rfl, rfl⟩

/-- Trace of the read half of `NewReadWriterFrom`: from buffer `vs`, the
`k`-th read pops `vs[k]` while in range, then fails with io.EOF. -/
theorem rwread_trace {α : Type} [Inhabited α] :
    ∀ (k : Nat) (vs : List α),
      nthOut NewReadWriterFromRead vs k = readSpec vs k := by
  intro k
  induction k with
  | zero =>
      intro vs
      cases vs with
      | nil => rw [nthOut_zero, readSpec, readSpecE_nil]; rfl
      | cons v rest => rw [nthOut_zero, readSpec, readSpecE_cons_zero]; rfl
  | succ k ih =>
      intro vs
      cases vs with
      | nil =>
          rw [nthOut_succ]
          have hst : (NewReadWriterFromRead ([] : List α)).1 = [] := rfl
          rw [hst, ih [], readSpec, readSpec, readSpecE_nil, readSpecE_nil]
      | cons v rest =>
          rw [nthOut_succ]
          have hst : (NewReadWriterFromRead (v :: rest)).1 = rest := rfl
          rw [hst, ih rest, readSpec, readSpec, readSpecE_cons_succ]

/-- C9: the read-writer from `NewReadWriterFrom` is a FIFO queue — reads pop
the front (initial values in argument order, then written values in write
order), a write appends at the back, a read on an empty buffer is io.EOF
with the zero value, and a write onto an empty buffer makes the next read
succeed with that value. -/
theorem claim_C9 {α : Type} [Inhabited α] (vs : List α) (k : Nat)
    (buf : List α) (v : α) :
    nthOut NewReadWriterFromRead vs k = readSpec vs k
    ∧ NewReadWriterFromWrite buf v = (buf ++ [v], none)
    ∧ NewReadWriterFromRead ([] : List α) = ([], default, some Err.eof)
    ∧ NewReadWriterFromRead ((NewReadWriterFromWrite ([] : List α) v).1)
        = ([], v, none) :=
  ⟨rwread_trace k vs, rfl, rfl, rfl⟩

end Iox

namespace Iox

/-- Counterexample to C4: the unbatching reader pulls `flipReader`, whose
first pull returns an empty list with io.EOF; that call fails, but no failure
is cached, and the very next call pulls the underlying reader again and
returns the value 5 with no failure — the claimed Exhausted state is not
absorbing. -/
theorem claim_C4_counterexample :
    flipReader 0 = (1, [], some Err.eof)
    ∧ nthOut (NewReaderWithUnbatching flipReader) (0, [], none) 0 = (0, some Err.eof)
    ∧ nthOut (NewReaderWithUnbatching flipReader) (0, [], none) 1 = (5, none) := by
  refine ⟨by decide, by decide, by decide⟩

/-- C4 amended: when a pull in the Fresh state obtains an empty list, the
call returns the accompanying failure (io.EOF when none), but no failure is
cached — the state returns to Fresh with an empty queue; a later pull that
obtains a non-empty list yields values again; and if the underlying reader
always returns empty lists, every call fails (returns the zero value with
some error) forever. -/
theorem claim_C4_amended {α : Type} [Inhabited α]
    (σ1 : Type) (step1 : StepFn σ1 (List α)) (st st1 : σ1) (e : Err)
    (h1 : step1 st = (st1, [], some e))
    (σ2 : Type) (step2 : StepFn σ2 (List α)) (t t1 : σ2)
    (h2 : step2 t = (t1, [], none))
    (σ3 : Type) (step3 : StepFn σ3 (List α)) (u u1 : σ3) (v : α) (rest : List α)
    (h3 : step3 u = (u1, v :: rest, none))
    (σ4 : Type) (step4 : StepFn σ4 (List α)) (w : σ4)
    (h4 : ∀ s, (step4 s).2.1 = []) :
    NewReaderWithUnbatching step1 (st, [], none) = ((st1, [], none), default, some e)
    ∧ NewReaderWithUnbatching step2 (t, [], none)
        = ((t1, [], none), default, some Err.eof)
    ∧ NewReaderWithUnbatching step3 (u, [], none) = ((u1, rest, none), v, none)
    ∧ ∀ k, ∃ e2, nthOut (NewReaderWithUnbatching step4) (w, [], none) k
        = (default, some e2) := by
  refine ⟨by rw [unb_fresh, h1], by rw [unb_fresh, h2], by rw [unb_fresh, h3], ?_⟩
  have main : ∀ (k : Nat) (s : σ4),
      ∃ e2, nthOut (NewReaderWithUnbatching step4) (s, [], none) k
        = (default, some e2) := by
    intro k
    induction k with
    | zero =>
        intro s
        rcases hstep : step4 s with ⟨s1, l, eo⟩
        have hl : l = [] := by
          have hx := h4 s
          rw [hstep] at hx
          exact hx
        subst hl
        cases eo with
        | none => exact ⟨Err.eof, by rw [nthOut_zero, unb_fresh, hstep]⟩
        | some e2 => exact ⟨e2, by rw [nthOut_zero, unb_fresh, hstep]⟩
    | succ k ihk =>
        intro s
        rcases hstep : step4 s with ⟨s1, l, eo⟩
        have hl : l = [] := by
          have hx := h4 s
          rw [hstep] at hx
          exact hx
        subst hl
        have hst : (NewReaderWithUnbatching step4 (s, [], none)).1 = (s1, [], none) := by
          cases eo with
          | none => rw [unb_fresh, hstep]
          | some e2 => rw [unb_fresh, hstep]
        rw [nthOut_succ, hst]
        exact ihk s1
  exact fun k => main k w

/-- Witness for the amended C4 on concrete readers. -/
theorem claim_C4_amended_witness :
    NewReaderWithUnbatching flipReader (0, [], none) = ((1, [], none), 0, some Err.eof)
    ∧ NewReaderWithUnbatching emptyNilReader (0, [], none)
        = ((0, [], none), 0, some Err.eof)
    ∧ NewReaderWithUnbatching flipReader (1, [], none) = ((2, [], none), 5, none)
    ∧ ∀ k, ∃ e2, nthOut (NewReaderWithUnbatching emptyNilReader) (0, [], none) k
        = (0, some e2) :=
  claim_C4_amended Nat flipReader 0 1 Err.eof (by decide)
    Nat emptyNilReader 0 0 (by decide)
    Nat flipReader 1 2 5 [] (by decide)
    Nat emptyNilReader 0 (fun _ => rfl)

end Iox

namespace Iox

/-- Counterexample to C3: over a one-value reader whose encoding is the two
bytes `[10, 20]`, a first byte-read of size 1 drains only `[10]`, leaving
`[20]` buffered; the second call pulls the wrapped reader first, gets io.EOF,
and returns that failure immediately although the buffer still holds `[20]` —
the terminal failure is not deferred until the buffer is empty, and the
buffered byte is never delivered. -/
theorem claim_C3_counterexample :
    NewReaderFromValues (NewReaderFrom [7]) encTwo 0 [] 1 = ((1, [20]), [10], none)
    ∧ NewReaderFromValues (NewReaderFrom [7]) encTwo 1 [20] 1
        = ((1, [20]), [], some Err.eof)
    ∧ ([20] : List Nat) ≠ [] := by
  refine ⟨by decide, by decide, by decide⟩

/-- C3 amended: every byte-read call pulls the wrapped reader before draining
the buffer. If the pull fails, the failure is returned at once — even when
the scratch buffer is non-empty — and the buffered bytes merely stay in
state. If the pull and the encoding succeed, the previously buffered bytes
are drained first (the request is served from the front of the old buffer
followed by the new encoding), so no byte is dropped on the success path. -/
theorem claim_C3_amended {α : Type}
    (σ1 : Type) (stepR1 : StepFn σ1 α) (enc1 : α → Except Err (List Nat))
    (rst rst1 : σ1) (v1 : α) (e : Err) (b : List Nat) (n : Nat)
    (hfail : stepR1 rst = (rst1, v1, some e))
    (σ2 : Type) (stepR2 : StepFn σ2 α) (enc2 : α → Except Err (List Nat))
    (t t1 : σ2) (v2 : α) (bs b2 : List Nat) (m : Nat)
    (hok : stepR2 t = (t1, v2, none)) (henc : enc2 v2 = Except.ok bs)
    (hne : b2 ++ bs ≠ []) :
    NewReaderFromValues stepR1 enc1 rst b n = ((rst1, b), [], some e)
    ∧ NewReaderFromValues stepR2 enc2 t b2 m
        = ((t1, (b2 ++ bs).drop m), (b2 ++ bs).take m, none) := by
  constructor
  · unfold NewReaderFromValues
    rw [hfail]
  · have hbr : bufRead (b2 ++ bs) m = ((b2 ++ bs).drop m, (b2 ++ bs).take m, none) := by
      unfold bufRead
      rw [if_neg]
      intro hx
      exact hne hx.1
    unfold NewReaderFromValues
    rw [hok]
    show (match enc2 v2 with
      | Except.error ee => ((t1, b2), [], some ee)
      | Except.ok bs2 =>
          ((t1, (bufRead (b2 ++ bs2) m).1),
            (bufRead (b2 ++ bs2) m).2.1, (bufRead (b2 ++ bs2) m).2.2))
      = ((t1, (b2 ++ bs).drop m), (b2 ++ bs).take m, none)
    rw [henc]
    show ((t1, (bufRead (b2 ++ bs) m).1),
        (bufRead (b2 ++ bs) m).2.1, (bufRead (b2 ++ bs) m).2.2)
      = ((t1, (b2 ++ bs).drop m), (b2 ++ bs).take m, none)
    rw [hbr]

/-- Witness for the amended C3 on concrete readers and encoders. -/
theorem claim_C3_amended_witness :
    NewReaderFromValues (NewReaderFrom ([] : List Nat)) encTwo 0 [3] 1
        = ((0, [3]), [], some Err.eof)
    ∧ NewReaderFromValues (NewReaderFrom [7]) encTwo 0 [9] 2
        = ((1, (([9] : List Nat) ++ [10, 20]).drop 2),
            (([9] : List Nat) ++ [10, 20]).take 2, none) :=
  claim_C3_amended Nat (NewReaderFrom ([] : List Nat)) encTwo 0 0 0 Err.eof [3] 1
    (by decide)
    Nat (NewReaderFrom [7]) encTwo 0 1 7 [10, 20] [9] 2
    (by decide) rfl (by decide)

/-- Counterexample to C5: the writer-side batcher with size 0 flushes already
on the first write, producing a batch of a single element — not a batch of 8. -/
theorem claim_C5_counterexample :
    NewWriterWithBatching recWriter 0 ([], []) 5 = (([[5]], []), none)
    ∧ ([5] : List Nat).length = 1
    ∧ (1 : Nat) ≠ 8 := by
  refine ⟨by decide, by decide, by decide⟩

/-- C5 amended: only the reader-side batcher defaults a size `≤ 0` to 8 — it
then groups values in batches of exactly 8 (last batch possibly smaller).
The writer-side batcher applies no default: with size `≤ 0` the length check
`len(buf) >= size` holds on every write, so each write immediately flushes
the buffer extended by the value (from an empty buffer: singleton batches).
(In Go, a strictly negative size would panic at construction when allocating
the buffer; the flush logic modeled here is reached only for size 0.) -/
theorem claim_C5_amended {α : Type} [Inhabited α]
    (size1 : Int) (hneg1 : size1 ≤ 0)
    (σr : Type) (stepr : StepFn σr α) (p : σr × Option Err)
    (size2 : Int) (hneg2 : size2 ≤ 0)
    (σw : Type) (stepw : WStepFn σw (List α)) (wst : σw) (v : α)
    (vs : List α) :
    NewReaderWithBatching stepr size1 p = batchingStep stepr 8 p
    ∧ (runN (NewReaderWithBatching (NewReaderFrom vs) size1)
          ((chunks 8 vs).length + 1) (0, none)).2
        = (chunks 8 vs).map (fun c => (c, none)) ++ [([], some Err.eof)]
    ∧ NewWriterWithBatching stepw size2 (wst, []) v
        = (((stepw wst [v]).1, []), (stepw wst [v]).2) := by
  have heff : effSize size1 = 8 := by
    unfold effSize
    rw [if_pos hneg1]
  refine ⟨?_, ?_, ?_⟩
  · simp only [NewReaderWithBatching, heff]
  · simp only [NewReaderWithBatching, heff]
    have h := batching_trace vs 8 (by omega) vs.length 0 (by omega) (by omega)
    rw [List.drop_zero] at h
    exact h
  · show (if size2 ≤ (((([] : List α) ++ [v]).length : Nat) : Int) then
        (((stepw wst (([] : List α) ++ [v])).1, []), (stepw wst (([] : List α) ++ [v])).2)
      else ((wst, ([] : List α) ++ [v]), none))
      = (((stepw wst [v]).1, []), (stepw wst [v]).2)
    rw [List.nil_append]
    rw [if_pos]
    have hl : (([v] : List α).length : Int) = 1 := by
      rw [List.length_cons, List.length_nil]
      rfl
    rw [hl]
    omega

/-- Witness for the amended C5 at sizes 0 and -3. -/
theorem claim_C5_amended_witness :
    NewReaderWithBatching (NewReaderFrom ([] : List Nat)) 0 (0, none)
        = batchingStep (NewReaderFrom ([] : List Nat)) 8 (0, none)
    ∧ (runN (NewReaderWithBatching (NewReaderFrom [1]) 0)
          ((chunks 8 [1]).length + 1) (0, none)).2
        = (chunks 8 [1]).map (fun c => (c, none)) ++ [([], some Err.eof)]
    ∧ NewWriterWithBatching recWriter (-3) ([], []) 5
        = (((recWriter [] [5]).1, []), (recWriter [] [5]).2) :=
  claim_C5_amended 0 (by decide) Nat (NewReaderFrom ([] : List Nat)) (0, none)
    (-3) (by decide) (List (List Nat)) recWriter [] 5 [1]

/-- C8: flush of the batching writer is not atomic on error — when the buffer
reaches the size threshold and the flush to the underlying writer fails, the
error is returned but the buffer is reset anyway, so the values of the failed
batch are discarded and never re-flushed. -/
theorem claim_C8 {α : Type} (σw : Type) (stepw : WStepFn σw (List α))
    (size : Int) (wst wst1 : σw) (buf : List α) (v : α) (e : Err)
    (hfull : size ≤ (((buf ++ [v]).length : Nat) : Int))
    (hw : stepw wst (buf ++ [v]) = (wst1, some e)) :
    NewWriterWithBatching stepw size (wst, buf) v = ((wst1, []), some e) := by
  show (if size ≤ (((buf ++ [v]).length : Nat) : Int) then
      (((stepw wst (buf ++ [v])).1, []), (stepw wst (buf ++ [v])).2)
    else ((wst, buf ++ [v]), none)) = ((wst1, []), some e)
  rw [if_pos hfull, hw]

/-- Witness for C8: a size-2 batching writer over an always-failing underlying
writer discards the failed batch `[1, 2]`. -/
theorem claim_C8_witness :
    NewWriterWithBatching failWriter 2 (0, [1]) 2 = ((1, []), some Err.closedPipe) :=
  claim_C8 Nat failWriter 2 0 1 [1] 2 Err.closedPipe (by decide) (by decide)

/-- C10: encode-failure atomicity of the value-to-bytes writer — if encoding
a value fails, the write call returns the encode error, the state (including
the underlying writer's state) is unchanged, and the underlying byte writer
is not invoked (the result does not depend on it). -/
theorem claim_C10 {α : Type} (enc : α → Except Err (List Nat)) (v : α) (e : Err)
    (henc : enc v = Except.error e)
    (σw : Type) (stepW : WStepFn σw (List Nat)) (wst : σw) (scratch : List Nat) :
    NewWriterFromValues enc stepW (wst, scratch) v = ((wst, scratch), some e) := by
  show (match enc v with
    | Except.error e2 => ((wst, scratch), some e2)
    | Except.ok bs =>
        (((stepW wst (scratch ++ bs)).1, []), (stepW wst (scratch ++ bs)).2))
    = ((wst, scratch), some e)
  rw [henc]

/-- Witness for C10 with an always-failing encoder over a recording writer. -/
theorem claim_C10_witness :
    NewWriterFromValues encFail recWriter ([], []) 5 = (([], []), some (Err.other 3)) :=
  claim_C10 encFail 5 (Err.other 3) rfl (List (List Nat)) recWriter [] []

end Iox
